import Mathlib

/-!
Verification of the intrusive MPSC queue of `src/libsync/sync/mpsc_intrusive.rs`
(Vyukov's intrusive node-based MPSC queue).

Shallow embedding.  Node addresses are natural numbers; the address `0` plays
the role of the null pointer (the code stores links as `AtomicUint` precisely
so that `0` is the null/zero representation).  A queue state consists of

  * `head`     : the `head: AtomicUint` field (0 = "nothing linked yet"),
  * `tail`     : the `tail: *mut Node<T>` field of the consumer (0 = null),
  * `stubNext` : the link field of the embedded `stub: DummyNode`,
  * `mem`      : the link fields of all caller-owned nodes, indexed by address.

The address of the embedded stub is a parameter `SA` of every operation: it is
the stable address `&self.stub`, distinct per queue, and nonzero for any real
allocation.  Payloads (`data: T`) are never touched by the algorithm and are
not modelled; `pop` returns the address of the popped node.

The claims are settled against a sequential (single-thread, interleaving-free)
execution model, which is the setting of the functional claims; states with
"mid-push" shapes (a head swap whose link write has not landed) are still
expressible as arbitrary `Queue` values and are used where a claim speaks
about transient inconsistency.
-/

/-- The queue state.  `head`, `tail` and `stubNext` are the three fields of
`Queue<T>` (with `stub: DummyNode` represented by its single link field);
`mem` holds the `next` link field of every caller node, by address. -/
structure Queue where
  head : Nat
  tail : Nat
  stubNext : Nat
  mem : Nat → Nat

/-- Pointwise function update used to model a store to one link field. -/
def upd (f : Nat → Nat) (a v : Nat) : Nat → Nat :=
  fun b => if b = a then v else f b

/-- Read the link field at address `a`: the embedded stub (address `SA`) lives
inside the queue record, every other address is caller memory. -/
def getLink (SA : Nat) (s : Queue) (a : Nat) : Nat :=
  if a = SA then s.stubNext else s.mem a

/-- Store `v` into the link field at address `a` (routing the stub's address
to the `stubNext` field, like a raw pointer store would). -/
def setLink (SA : Nat) (s : Queue) (a v : Nat) : Queue :=
  if a = SA then { s with stubNext := v } else { s with mem := upd s.mem a v }

/-- Constructor `Queue::new()`: head = 0, tail = null, stub.next = 0.  The caller-node
memory `m` is ambient and untouched by construction. -/
def Queue.new (m : Nat → Nat) : Queue :=
  { head := 0, tail := 0, stubNext := 0, mem := m }

/-- The all-zero static representation of a queue: every field of the struct
(head word, tail pointer, stub link word) holds zero. -/
def Queue.zeroed (m : Nat → Nat) : Queue :=
  { head := 0, tail := 0, stubNext := 0, mem := m }

/-- Operation `Queue::push(node)`, translated step by step:
`(*node).next.store(0)`; `prev = head.swap(node)`;
`if prev == 0 { stub.next.store(node) } else { (*prev).next.store(node) }`. -/
def Queue.push (SA : Nat) (s : Queue) (node : Nat) : Queue :=
  let s1 := setLink SA s node 0
  let prev := s1.head
  let s2 := { s1 with head := node }
  if prev = 0 then setLink SA s2 SA node
  else setLink SA s2 prev node

/-- The consumer cursor of `pop`: `self.tail`, or the stub if that is null
(`let mut tail = if !tail.is_null() {tail} else {&self.stub}`). -/
def cursor (SA : Nat) (s : Queue) : Nat :=
  if s.tail = 0 then SA else s.tail

/-- The part of `pop` after the stub-advance block, with `tl` the cursor and
`nx` the value already read from the cursor's link field:
`if !next.is_null() { self.tail = next; return Some(tail) }`;
`if tail != head { return None }`; `self.push(stub)`; re-read; return. -/
def popRest (SA : Nat) (s : Queue) (tl nx : Nat) : Option Nat × Queue :=
  if nx ≠ 0 then (some tl, { s with tail := nx })
  else if tl ≠ s.head then (none, s)
  else if getLink SA (Queue.push SA s SA) tl ≠ 0 then
    (some tl, { Queue.push SA s SA with tail := getLink SA (Queue.push SA s SA) tl })
  else (none, Queue.push SA s SA)

/-- Operation `Queue::pop()`.  The first branch is the stub block:
`if tail == &self.stub { if next.is_null() { return None };
self.tail = next; tail = next; next = (*next).next }`. -/
def Queue.pop (SA : Nat) (s : Queue) : Option Nat × Queue :=
  if cursor SA s = SA then
    if getLink SA s SA = 0 then (none, s)
    else popRest SA { s with tail := getLink SA s SA } (getLink SA s SA)
      (getLink SA s (getLink SA s SA))
  else popRest SA s (cursor SA s) (getLink SA s (cursor SA s))

/-- A single client operation on the queue. -/
inductive Op where
  | push : Nat → Op
  | pop : Op
deriving DecidableEq

/-- Run a sequence of operations; returns the final state and the list of
`pop` results in order. -/
def run (SA : Nat) (s : Queue) : List Op → Queue × List (Option Nat)
  | [] => (s, [])
  | Op.push a :: ops => run SA (Queue.push SA s a) ops
  | Op.pop :: ops =>
    let r := Queue.pop SA s
    let rest := run SA r.2 ops
    (rest.1, r.1 :: rest.2)

/-- The abstract FIFO queue: a list of pending node addresses, oldest first.
`push` appends, `pop` removes the front (or reports `none` when empty). -/
def absRun (L : List Nat) : List Op → List Nat × List (Option Nat)
  | [] => (L, [])
  | Op.push a :: ops => absRun (L ++ [a]) ops
  | Op.pop :: ops =>
    match L with
    | [] =>
      let rest := absRun [] ops
      (rest.1, none :: rest.2)
    | n :: L2 =>
      let rest := absRun L2 ops
      (rest.1, some n :: rest.2)

/-- Validity of an operation sequence against the evolving pending list `L`:
every pushed address is a real node (nonzero), is not the queue-owned stub,
and is not currently linked into the queue (unique stable address).  A node
returned by `pop` may be pushed again, as ownership has reverted. -/
def Valid (SA : Nat) : List Nat → List Op → Prop
  | _, [] => True
  | L, Op.push a :: ops => a ≠ 0 ∧ a ≠ SA ∧ a ∉ L ∧ Valid SA (L ++ [a]) ops
  | L, Op.pop :: ops => Valid SA L.tail ops

/-- Decidability of `Valid`, so concrete scenarios can be checked by `decide`. -/
def decValid (SA : Nat) : (L : List Nat) → (ops : List Op) → Decidable (Valid SA L ops)
  | _, [] => Decidable.isTrue trivial
  | L, Op.push a :: ops =>
    have : Decidable (Valid SA (L ++ [a]) ops) := decValid SA (L ++ [a]) ops
    decidable_of_iff (a ≠ 0 ∧ a ≠ SA ∧ a ∉ L ∧ Valid SA (L ++ [a]) ops) Iff.rfl
  | L, Op.pop :: ops =>
    have : Decidable (Valid SA L.tail ops) := decValid SA L.tail ops
    decidable_of_iff (Valid SA L.tail ops) Iff.rfl

instance instDecidableValid (SA : Nat) (L : List Nat) (ops : List Op) :
    Decidable (Valid SA L ops) :=
  decValid SA L ops

/-- The addresses pushed by an operation sequence, in order. -/
def pushed : List Op → List Nat
  | [] => []
  | Op.push a :: ops => a :: pushed ops
  | Op.pop :: ops => pushed ops

/-- The successful results of a list of `pop` outcomes, in order. -/
def successes : List (Option Nat) → List Nat
  | [] => []
  | some a :: l => a :: successes l
  | none :: l => successes l

/-- Predicate `pfxOf l1 l2`: `l1` is an initial segment of `l2`. -/
def pfxOf (l1 l2 : List Nat) : Prop :=
  ∃ t, l1 ++ t = l2

/-- The last element of a list of addresses (0 for the empty list). -/
def lastN : List Nat → Nat
  | [] => 0
  | [a] => a
  | _ :: b :: l => lastN (b :: l)

/-- Predicate `Chain f a C`: following the link function `f` from address `a` visits
exactly the addresses of `C` and then reaches null.  `Chain f 0 []` is the
terminated chain. -/
inductive Chain (f : Nat → Nat) : Nat → List Nat → Prop where
  | nil : Chain f 0 []
  | cons {a : Nat} {L : List Nat} : a ≠ 0 → Chain f (f a) L → Chain f a (a :: L)

/-- Representation invariant of the sequential queue: the concrete state `s`
represents the pending list `L` (oldest first).  `C` is the full link chain
starting at the consumer cursor; when the cursor is the stub the pending
nodes are the chain minus the stub, otherwise the cursor itself is the oldest
pending node.  `head` is the end of the chain, except in the never-popped,
never-pushed fresh state where it is still the zero representation. -/
def QRep (SA : Nat) (s : Queue) (L : List Nat) : Prop :=
  SA ≠ 0 ∧
  ∃ C : List Nat,
    Chain (getLink SA s) (cursor SA s) C ∧
    (if cursor SA s = SA then C = SA :: L else C = L) ∧
    SA ∉ L ∧
    ((s.tail = 0 ∧ L = [] ∧ s.head = 0) ∨ s.head = lastN C)

/-- Cursor after the stub-advance block of `pop` (meaningful when `pop` does
not return in that block, i.e. when the stub's link was not null). -/
def cur1 (SA : Nat) (s : Queue) : Nat :=
  if cursor SA s = SA then getLink SA s SA else cursor SA s

/-- Queue state after the stub-advance block of `pop` (the committed
`self.tail = next` of that block). -/
def adv (SA : Nat) (s : Queue) : Queue :=
  if cursor SA s = SA then { s with tail := getLink SA s SA } else s

/-- Case (a) of `pop` reporting empty: the cursor is the stub and the stub's
link is null. -/
def condA (SA : Nat) (s : Queue) : Prop :=
  cursor SA s = SA ∧ getLink SA s SA = 0

/-- Case (b): the (possibly advanced) cursor's link is null and the cursor
differs from the current head. -/
def condB (SA : Nat) (s : Queue) : Prop :=
  ¬ condA SA s ∧ getLink SA s (cur1 SA s) = 0 ∧ cur1 SA s ≠ s.head

/-- Case (c): the cursor's link is null, the cursor equals head, and the
cursor's link is still null after the stub reinsertion. -/
def condC (SA : Nat) (s : Queue) : Prop :=
  ¬ condA SA s ∧ getLink SA s (cur1 SA s) = 0 ∧ cur1 SA s = s.head ∧
    getLink SA (Queue.push SA (adv SA s) SA) (cur1 SA s) = 0

/-- Instrumented tail of `pop`: also reports the number of cursor hops taken
so far and whether the stub reinsertion was performed. -/
def popRestI (SA : Nat) (s : Queue) (tl nx hops : Nat) :
    (Option Nat × Queue) × Nat × Nat :=
  if nx ≠ 0 then ((some tl, { s with tail := nx }), hops, 0)
  else if tl ≠ s.head then ((none, s), hops, 0)
  else if getLink SA (Queue.push SA s SA) tl ≠ 0 then
    (((some tl, { Queue.push SA s SA with tail := getLink SA (Queue.push SA s SA) tl })), hops, 1)
  else ((none, Queue.push SA s SA), hops, 1)

/-- Instrumented `pop`: same result as `Queue.pop`, plus the number of cursor
hops and the number of stub reinsertions performed. -/
def popInstr (SA : Nat) (s : Queue) : (Option Nat × Queue) × Nat × Nat :=
  if cursor SA s = SA then
    if getLink SA s SA = 0 then ((none, s), 0, 0)
    else popRestI SA { s with tail := getLink SA s SA } (getLink SA s SA)
      (getLink SA s (getLink SA s SA)) 1
  else popRestI SA s (cursor SA s) (getLink SA s (cursor SA s)) 0

/-- Operation `push` instrumented with whether the zero-previous-head branch (the one
that writes the stub's forward field) was taken. -/
def pushZ (SA : Nat) (s : Queue) (node : Nat) : Queue × Nat :=
  let s1 := setLink SA s node 0
  let prev := s1.head
  let s2 := { s1 with head := node }
  if prev = 0 then (setLink SA s2 SA node, 1)
  else (setLink SA s2 prev node, 0)

/-- Tail of `pop` instrumented with the zero-branch count of its internal
stub reinsertion. -/
def popRestZ (SA : Nat) (s : Queue) (tl nx : Nat) : (Option Nat × Queue) × Nat :=
  if nx ≠ 0 then ((some tl, { s with tail := nx }), 0)
  else if tl ≠ s.head then ((none, s), 0)
  else if getLink SA (pushZ SA s SA).1 tl ≠ 0 then
    (((some tl, { (pushZ SA s SA).1 with tail := getLink SA (pushZ SA s SA).1 tl })),
      (pushZ SA s SA).2)
  else ((none, (pushZ SA s SA).1), (pushZ SA s SA).2)

/-- Operation `pop` instrumented with the number of zero-previous-head push branches
executed inside it. -/
def popZ (SA : Nat) (s : Queue) : (Option Nat × Queue) × Nat :=
  if cursor SA s = SA then
    if getLink SA s SA = 0 then ((none, s), 0)
    else popRestZ SA { s with tail := getLink SA s SA } (getLink SA s SA)
      (getLink SA s (getLink SA s SA))
  else popRestZ SA s (cursor SA s) (getLink SA s (cursor SA s))

/-- Run a sequence of operations counting every execution of the
zero-previous-head branch of `push`, including those performed by `pop`'s
internal stub reinsertion. -/
def runZ (SA : Nat) (s : Queue) : List Op → Queue × Nat
  | [] => (s, 0)
  | Op.push a :: ops =>
    let r := pushZ SA s a
    let rest := runZ SA r.1 ops
    (rest.1, r.2 + rest.2)
  | Op.pop :: ops =>
    let r := popZ SA s
    let rest := runZ SA r.1.2 ops
    (rest.1, r.2 + rest.2)

/-- Concrete mid-push state used to exhibit the transient-empty behaviour of
`pop`: a first push of node 2 has completed, a second producer pushing node 7
has swapped `head` but its link write `mem 2 := 7` has not landed. -/
def cexB : Queue :=
  { head := 7, tail := 0, stubNext := 2, mem := fun _ => 0 }

/-- Concrete one-element state (node 2 pushed onto a fresh queue) on which
`pop` takes the stub-reinsertion path. -/
def s2cex : Queue :=
  Queue.push 1 (Queue.new (fun _ => 0)) 2

instance decCondA (SA : Nat) (s : Queue) : Decidable (condA SA s) :=
  decidable_of_iff (cursor SA s = SA ∧ getLink SA s SA = 0) Iff.rfl

instance decCondB (SA : Nat) (s : Queue) : Decidable (condB SA s) :=
  decidable_of_iff
    (¬ condA SA s ∧ getLink SA s (cur1 SA s) = 0 ∧ cur1 SA s ≠ s.head) Iff.rfl

instance decCondC (SA : Nat) (s : Queue) : Decidable (condC SA s) :=
  decidable_of_iff
    (¬ condA SA s ∧ getLink SA s (cur1 SA s) = 0 ∧ cur1 SA s = s.head ∧
      getLink SA (Queue.push SA (adv SA s) SA) (cur1 SA s) = 0) Iff.rfl

/-- Reading a link is unaffected by updating the consumer tail field. -/
theorem getLink_tailset (SA : Nat) (s : Queue) (x : Nat) :
    getLink SA { s with tail := x } = getLink SA s :=
  funext fun _ => rfl

/-- Reading a link is unaffected by updating the head field. -/
theorem getLink_headset (SA : Nat) (s : Queue) (x : Nat) :
    getLink SA { s with head := x } = getLink SA s :=
  funext fun _ => rfl

/-- Writing a link with `setLink` does not change the head field. -/
theorem setLink_head (SA : Nat) (s : Queue) (a v : Nat) :
    (setLink SA s a v).head = s.head := by
  unfold setLink; split <;> rfl

/-- Writing a link with `setLink` does not change the tail field. -/
theorem setLink_tail (SA : Nat) (s : Queue) (a v : Nat) :
    (setLink SA s a v).tail = s.tail := by
  unfold setLink; split <;> rfl

/-- The link view after a `setLink` is a pointwise update of the link view. -/
theorem getLink_setLink (SA : Nat) (s : Queue) (x v : Nat) :
    getLink SA (setLink SA s x v) = upd (getLink SA s) x v := by
  funext a
  unfold setLink
  split
  · rename_i hx
    subst hx
    by_cases ha : a = x <;> simp [getLink, upd, ha]
  · rename_i hx
    by_cases ha : a = x
    · subst ha
      simp [getLink, upd, hx]
    · by_cases hs : a = SA
      · simp only [getLink, upd, if_pos hs, if_neg ha]
      · simp [getLink, upd, ha, hs]

/-- Operation `push` installs the pushed node as the new head. -/
theorem push_head (SA : Nat) (s : Queue) (n : Nat) :
    (Queue.push SA s n).head = n := by
  simp only [Queue.push, setLink]
  split_ifs <;> rfl

/-- Operation `push` does not change the consumer tail. -/
theorem push_tail (SA : Nat) (s : Queue) (n : Nat) :
    (Queue.push SA s n).tail = s.tail := by
  simp only [Queue.push, setLink]
  split_ifs <;> rfl

/-- The link view after a `push`: the pushed node's link is nulled first, then
the previous head (or the stub, when the previous head was the zero
representation) is linked to the node. -/
theorem push_getLink (SA : Nat) (s : Queue) (n : Nat) :
    getLink SA (Queue.push SA s n) =
      upd (upd (getLink SA s) n 0) (if s.head = 0 then SA else s.head) n := by
  simp only [Queue.push]
  rw [setLink_head]
  by_cases h : s.head = 0
  · rw [if_pos h, if_pos h, getLink_setLink, getLink_headset, getLink_setLink]
  · rw [if_neg h, if_neg h, getLink_setLink, getLink_headset, getLink_setLink]

/-- The cursor is unchanged by `push` (it depends only on the tail field). -/
theorem cursor_push (SA SB : Nat) (s : Queue) (n : Nat) :
    cursor SA (Queue.push SB s n) = cursor SA s := by
  unfold cursor
  rw [push_tail]

/-- Unfolding `pop` in the empty-stub case. -/
theorem pop_stub_empty (SA : Nat) (s : Queue) (hc : cursor SA s = SA)
    (hn : getLink SA s SA = 0) : Queue.pop SA s = (none, s) := by
  unfold Queue.pop
  rw [if_pos hc, if_pos hn]

/-- Unfolding `pop` when the cursor is the stub and the stub has a successor:
the cursor advances to that successor and the tail write is committed. -/
theorem pop_stub_adv (SA : Nat) (s : Queue) (hc : cursor SA s = SA)
    (hn : getLink SA s SA ≠ 0) :
    Queue.pop SA s = popRest SA { s with tail := getLink SA s SA }
      (getLink SA s SA) (getLink SA s (getLink SA s SA)) := by
  unfold Queue.pop
  rw [if_pos hc, if_neg hn]

/-- Unfolding `pop` when the cursor is a real node. -/
theorem pop_direct (SA : Nat) (s : Queue) (hc : cursor SA s ≠ SA) :
    Queue.pop SA s = popRest SA s (cursor SA s) (getLink SA s (cursor SA s)) := by
  unfold Queue.pop
  rw [if_neg hc]

/-- Unfolding `popRest` when the cursor has a successor. -/
theorem popRest_some (SA : Nat) (s : Queue) (tl nx : Nat) (h : nx ≠ 0) :
    popRest SA s tl nx = (some tl, { s with tail := nx }) := by
  unfold popRest
  rw [if_pos h]

/-- Unfolding `popRest` when the cursor link is null and the cursor is not the
current head: transient empty, nothing further is written. -/
theorem popRest_behind (SA : Nat) (s : Queue) (tl nx : Nat) (h0 : nx = 0)
    (hh : tl ≠ s.head) : popRest SA s tl nx = (none, s) := by
  unfold popRest
  rw [if_neg (by simp [h0]), if_pos hh]

/-- Unfolding `popRest` through the stub reinsertion, in the case where the
re-read link is non-null. -/
theorem popRest_reinsert (SA : Nat) (s : Queue) (tl nx : Nat) (h0 : nx = 0)
    (hh : tl = s.head) (h2 : getLink SA (Queue.push SA s SA) tl ≠ 0) :
    popRest SA s tl nx =
      (some tl, { Queue.push SA s SA with tail := getLink SA (Queue.push SA s SA) tl }) := by
  unfold popRest
  rw [if_neg (by simp [h0]), if_neg (by simp [hh]), if_pos h2]

/-- Elements of a chain are nonzero (null terminates a chain, it is never in
one). -/
theorem Chain.ne_zero_mem {f : Nat → Nat} {a : Nat} {C : List Nat} {x : Nat}
    (h : Chain f a C) (hx : x ∈ C) : x ≠ 0 := by
  induction h with
  | nil => cases hx
  | cons h1 h2 ih =>
    rcases List.mem_cons.1 hx with h | h
    · subst h; exact h1
    · exact ih h

/-- A chain starts at its own first element. -/
theorem Chain.start {f : Nat → Nat} {a b : Nat} {L : List Nat}
    (h : Chain f a (b :: L)) : a = b := by
  cases h; rfl

/-- Chains are determined by their starting address. -/
theorem Chain.unique {f : Nat → Nat} {a : Nat} {C : List Nat}
    (h : Chain f a C) : ∀ D : List Nat, Chain f a D → C = D := by
  induction h with
  | nil =>
    intro D hD
    cases hD with
    | nil => rfl
    | cons h1 _ => exact absurd rfl h1
  | cons h1 h2 ih =>
    intro D hD
    cases hD with
    | nil => exact absurd rfl h1
    | cons h3 h4 => rw [ih _ h4]

/-- Every member of a chain starts a chain of its own, no longer than the
whole. -/
theorem Chain.mem_len {f : Nat → Nat} {a : Nat} {C : List Nat}
    (h : Chain f a C) : ∀ x ∈ C, ∃ D : List Nat, Chain f x D ∧ D.length ≤ C.length := by
  induction h with
  | nil => intro x hx; cases hx
  | cons h1 h2 ih =>
    intro x hx
    rcases List.mem_cons.1 hx with hx | hx
    · subst hx
      exact ⟨_, Chain.cons h1 h2, Nat.le_refl _⟩
    · rcases ih x hx with ⟨D, hD, hlen⟩
      exact ⟨D, hD, Nat.le_succ_of_le hlen⟩

/-- The starting address of a chain does not reappear later in it. -/
theorem Chain.head_not_tail {f : Nat → Nat} {a : Nat} {L : List Nat}
    (h : Chain f a (a :: L)) : a ∉ L := by
  intro hmem
  have h2 : Chain f (f a) L := by cases h; assumption
  rcases h2.mem_len a hmem with ⟨D, hD, hlen⟩
  have := hD.unique _ h
  subst this
  simp at hlen

/-- The last element of a nonempty list is a member. -/
theorem lastN_mem : ∀ (l : List Nat), l ≠ [] → lastN l ∈ l := by
  intro l
  induction l with
  | nil => intro h; exact absurd rfl h
  | cons a l ih =>
    intro _
    cases l with
    | nil => simp [lastN]
    | cons b l2 =>
      have := ih (by simp)
      simp only [lastN]
      exact List.mem_cons_of_mem a this

/-- Value of `lastN` on a one-step extension. -/
theorem lastN_concat : ∀ (l : List Nat) (a : Nat), lastN (l ++ [a]) = a := by
  intro l
  induction l with
  | nil => intro a; rfl
  | cons x l ih =>
    intro a
    cases l with
    | nil => rfl
    | cons y l2 => simpa [lastN] using ih a

/-- Value of `lastN` ignores the first element of a list with at least two elements. -/
theorem lastN_cons_cons (a b : Nat) (l : List Nat) :
    lastN (a :: b :: l) = lastN (b :: l) := rfl

/-- A chain that has already ended started at null. -/
theorem Chain.eq_zero {f : Nat → Nat} {a : Nat} (h : Chain f a []) : a = 0 := by
  cases h; rfl

/-- A nonempty chain ends at an address whose link is null. -/
theorem Chain.last_link {f : Nat → Nat} {a : Nat} {C : List Nat}
    (h : Chain f a C) (hne : C ≠ []) : f (lastN C) = 0 := by
  induction h with
  | nil => exact absurd rfl hne
  | cons h1 h2 ih =>
    rename_i x L
    cases L with
    | nil =>
      simpa [lastN] using h2.eq_zero
    | cons y l2 =>
      rw [lastN_cons_cons]
      exact ih (by simp)

/-- Linking a fresh node after the last element of a chain (having first
nulled the fresh node's own link) extends the chain by that node.  This is
the heart of `push`: the two stores of `push` turn the chain `C` into
`C ++ [n]`. -/
theorem Chain.extend {f : Nat → Nat} {a : Nat} {C : List Nat} {n : Nat}
    (h : Chain f a C) (hne : C ≠ []) (hn0 : n ≠ 0) (hnC : n ∉ C) :
    Chain (upd (upd f n 0) (lastN C) n) a (C ++ [n]) := by
  induction h with
  | nil => exact absurd rfl hne
  | cons h1 h2 ih =>
    rename_i x L
    cases L with
    | nil =>
      have hxn : x ≠ n := fun hc => hnC (by simp [hc])
      refine Chain.cons h1 ?_
      have hfx : upd (upd f n 0) (lastN [x]) n x = n := by
        simp [lastN, upd]
      rw [hfx]
      refine Chain.cons hn0 ?_
      have hfn : upd (upd f n 0) (lastN [x]) n n = 0 := by
        simp [lastN, upd, Ne.symm hxn]
      rw [hfn]
      exact Chain.nil
    | cons y l2 =>
      have hxL : x ∉ (y :: l2) := (Chain.cons h1 h2).head_not_tail
      have hxn : x ≠ n := fun hc => hnC (by simp [hc])
      have hxlast : x ≠ lastN (y :: l2) := by
        intro hc
        exact hxL (by rw [hc]; exact lastN_mem (y :: l2) (by simp))
      refine Chain.cons h1 ?_
      rw [lastN_cons_cons]
      have hfx : upd (upd f n 0) (lastN (y :: l2)) n x = f x := by
        simp [upd, hxn, hxlast]
      rw [hfx]
      exact ih (by simp) (fun hc => hnC (List.mem_cons_of_mem x hc))

/-- A freshly constructed queue represents the empty pending list. -/
theorem rep_new (SA : Nat) (m : Nat → Nat) (hSA : SA ≠ 0) :
    QRep SA (Queue.new m) [] := by
  refine ⟨hSA, [SA], ?_, ?_, ?_, ?_⟩
  · have hc : cursor SA (Queue.new m) = SA := by simp [cursor, Queue.new]
    rw [hc]
    refine Chain.cons hSA ?_
    have hl : getLink SA (Queue.new m) SA = 0 := by simp [getLink, Queue.new]
    rw [hl]
    exact Chain.nil
  · simp [cursor, Queue.new]
  · simp
  · exact Or.inl ⟨rfl, rfl, rfl⟩

/-- Operation `push` of a fresh node appends it to the represented pending list. -/
theorem push_rep (SA : Nat) (s : Queue) (L : List Nat) (n : Nat)
    (h : QRep SA s L) (hn0 : n ≠ 0) (hnSA : n ≠ SA) (hnL : n ∉ L) :
    QRep SA (Queue.push SA s n) (L ++ [n]) := by
  obtain ⟨hSA, C, hch, hC, hSAL, hhd⟩ := h
  have hCne : C ≠ [] := by
    intro hc
    subst hc
    have h0c := hch.eq_zero
    unfold cursor at h0c
    split at h0c
    · exact hSA h0c
    · rename_i ht
      exact ht h0c
  have hnC : n ∉ C := by
    by_cases hcur : cursor SA s = SA
    · rw [if_pos hcur] at hC
      subst hC
      intro hmem
      rcases List.mem_cons.1 hmem with hx | hx
      · exact hnSA hx
      · exact hnL hx
    · rw [if_neg hcur] at hC
      subst hC
      exact hnL
  have hSAn : SA ∉ L ++ [n] := by
    intro hmem
    rcases List.mem_append.1 hmem with hx | hx
    · exact hSAL hx
    · exact hnSA (List.mem_singleton.1 hx).symm
  by_cases h0 : s.head = 0
  · have hhd2 : s.tail = 0 ∧ L = [] ∧ s.head = 0 := by
      rcases hhd with h | h
      · exact h
      · exfalso
        have hz : lastN C = 0 := by rw [← h]; exact h0
        exact Chain.ne_zero_mem hch (lastN_mem C hCne) hz
    obtain ⟨ht0, hL0, _⟩ := hhd2
    subst hL0
    have hcur : cursor SA s = SA := by simp [cursor, ht0]
    rw [if_pos hcur] at hC
    subst hC
    have hfSA : getLink SA s SA = 0 := by
      have hch2 := hch
      rw [hcur] at hch2
      cases hch2 with
      | cons h1 h2 => exact h2.eq_zero
    refine ⟨hSA, SA :: [n], ?_, ?_, hSAn, ?_⟩
    · rw [cursor_push, hcur, push_getLink, h0, if_pos rfl]
      refine Chain.cons hSA ?_
      have hg1 : upd (upd (getLink SA s) n 0) SA n SA = n := by simp [upd]
      rw [hg1]
      refine Chain.cons hn0 ?_
      have hg2 : upd (upd (getLink SA s) n 0) SA n n = 0 := by simp [upd, hnSA]
      rw [hg2]
      exact Chain.nil
    · rw [cursor_push]
      rw [if_pos hcur]
      simp
    · right
      rw [push_head]
      rfl
  · have hlast : s.head = lastN C := by
      rcases hhd with h | h
      · exact absurd h.2.2 h0
      · exact h
    refine ⟨hSA, C ++ [n], ?_, ?_, hSAn, ?_⟩
    · rw [cursor_push, push_getLink, if_neg h0, hlast]
      exact hch.extend hCne hn0 hnC
    · rw [cursor_push]
      by_cases hcur : cursor SA s = SA
      · rw [if_pos hcur]
        rw [if_pos hcur] at hC
        rw [hC]
        rfl
      · rw [if_neg hcur]
        rw [if_neg hcur] at hC
        rw [hC]
    · right
      rw [push_head, lastN_concat]

/-- Specification of the tail part of `pop` under the representation
invariant: the cursor node is returned and the remaining list is
represented. -/
theorem popRest_spec (SA : Nat) (s : Queue) (tl : Nat) (L2 : List Nat)
    (hSA : SA ≠ 0) (htlSA : tl ≠ SA) (hSAL2 : SA ∉ L2)
    (hch : Chain (getLink SA s) tl (tl :: L2))
    (hhd : s.head = lastN (tl :: L2)) :
    (popRest SA s tl (getLink SA s tl)).1 = some tl ∧
      QRep SA (popRest SA s tl (getLink SA s tl)).2 L2 := by
  have htl0 : tl ≠ 0 := Chain.ne_zero_mem hch (by simp)
  cases L2 with
  | nil =>
    have hf : getLink SA s tl = 0 := by
      have hl := hch.last_link (by simp)
      simpa [lastN] using hl
    have hhead : tl = s.head := by rw [hhd]; simp [lastN]
    have hh0 : s.head ≠ 0 := by rw [← hhead]; exact htl0
    have hgtl : getLink SA (Queue.push SA s SA) tl = SA := by
      rw [push_getLink, if_neg hh0]
      simp [upd, hhead]
    have hre : getLink SA (Queue.push SA s SA) tl ≠ 0 := by
      rw [hgtl]; exact hSA
    rw [popRest_reinsert SA s tl _ hf hhead hre]
    refine ⟨rfl, hSA, [SA], ?_, ?_, by simp, ?_⟩
    · have hcur : cursor SA
          { Queue.push SA s SA with tail := getLink SA (Queue.push SA s SA) tl } = SA := by
        simp [cursor, hgtl, hSA]
      rw [hcur, getLink_tailset]
      refine Chain.cons hSA ?_
      have hz : getLink SA (Queue.push SA s SA) SA = 0 := by
        rw [push_getLink, if_neg hh0]
        have hSAhead : SA ≠ s.head := by rw [← hhead]; exact Ne.symm htlSA
        simp [upd, hSAhead]
      rw [hz]
      exact Chain.nil
    · have hcur : cursor SA
          { Queue.push SA s SA with tail := getLink SA (Queue.push SA s SA) tl } = SA := by
        simp [cursor, hgtl, hSA]
      rw [if_pos hcur]
    · right
      show (Queue.push SA s SA).head = lastN [SA]
      rw [push_head]
      rfl
  | cons m L3 =>
    have hm : getLink SA s tl = m := by
      cases hch with
      | cons h1 h2 => exact h2.start
    have hm0 : m ≠ 0 := Chain.ne_zero_mem hch (by simp)
    have hmSA : m ≠ SA := fun hc => hSAL2 (by simp [hc])
    rw [popRest_some SA s tl _ (by rw [hm]; exact hm0)]
    refine ⟨rfl, hSA, m :: L3, ?_, ?_, hSAL2, ?_⟩
    · have hcur : cursor SA { s with tail := getLink SA s tl } = m := by
        simp [cursor, hm, hm0]
      rw [hcur, getLink_tailset]
      cases hch with
      | cons h1 h2 =>
        rw [hm] at h2
        exact h2
    · have hcur : cursor SA { s with tail := getLink SA s tl } = m := by
        simp [cursor, hm, hm0]
      rw [hcur, if_neg hmSA]
    · right
      show s.head = lastN (m :: L3)
      rw [hhd, lastN_cons_cons]

/-- Full specification of `pop` under the representation invariant: the
result is the front of the pending list (or `none` when it is empty) and the
new state represents the rest. -/
theorem pop_rep (SA : Nat) (s : Queue) (L : List Nat) (h : QRep SA s L) :
    (Queue.pop SA s).1 = L.head? ∧ QRep SA (Queue.pop SA s).2 L.tail := by
  obtain ⟨hSA, C, hch, hC, hSAL, hhd⟩ := h
  by_cases hcur : cursor SA s = SA
  · rw [if_pos hcur] at hC
    subst hC
    rw [hcur] at hch
    cases L with
    | nil =>
      have hf : getLink SA s SA = 0 := by
        cases hch with
        | cons h1 h2 => exact h2.eq_zero
      rw [pop_stub_empty SA s hcur hf]
      refine ⟨rfl, hSA, [SA], ?_, ?_, by simp, hhd⟩
      · rw [hcur]
        exact hch
      · rw [if_pos hcur]
        rfl
    | cons n L2 =>
      have hn : getLink SA s SA = n := by
        cases hch with
        | cons h1 h2 => exact h2.start
      have hn0 : n ≠ 0 := by
        refine Chain.ne_zero_mem hch ?_
        simp
      have hnSA : n ≠ SA := fun hc => hSAL (by simp [hc])
      rw [pop_stub_adv SA s hcur (by rw [hn]; exact hn0)]
      rw [hn]
      have hch2 : Chain (getLink SA { s with tail := n }) n (n :: L2) := by
        rw [getLink_tailset]
        cases hch with
        | cons h1 h2 =>
          rw [hn] at h2
          exact h2
      have hhd2 : ({ s with tail := n } : Queue).head = lastN (n :: L2) := by
        show s.head = lastN (n :: L2)
        rcases hhd with hfresh | hl
        · exact absurd hfresh.2.1 (by simp)
        · rw [hl, lastN_cons_cons]
      have hspec := popRest_spec SA { s with tail := n } n L2 hSA hnSA
        (fun hmem => hSAL (List.mem_cons_of_mem n hmem)) hch2 hhd2
      rw [show getLink SA s n = getLink SA { s with tail := n } n from
        (congrFun (getLink_tailset SA s n) n).symm]
      exact hspec
  · rw [if_neg hcur] at hC
    subst hC
    have ht0 : s.tail ≠ 0 := by
      intro hc
      exact hcur (by simp [cursor, hc])
    cases C with
    | nil =>
      exfalso
      apply ht0
      have hz := hch.eq_zero
      rw [show cursor SA s = s.tail from by simp [cursor, ht0]] at hz
      exact hz
    | cons x L2 =>
      have hx : cursor SA s = x := hch.start
      rw [pop_direct SA s hcur, hx]
      rw [hx] at hch
      have hxSA : x ≠ SA := by rw [← hx]; exact hcur
      have hhd2 : s.head = lastN (x :: L2) := by
        rcases hhd with hfresh | hl
        · exact absurd hfresh.1 ht0
        · exact hl
      exact popRest_spec SA s x L2 hSA hxSA
        (fun hmem => hSAL (List.mem_cons_of_mem x hmem)) hch hhd2

/-- Refinement of the concrete queue by the abstract FIFO queue: a valid
operation sequence run from a state representing `L` produces exactly the
outputs of the abstract FIFO run, and the final state represents the final
abstract list. -/
theorem run_abs (SA : Nat) : ∀ (ops : List Op) (s : Queue) (L : List Nat),
    QRep SA s L → Valid SA L ops →
    (run SA s ops).2 = (absRun L ops).2 ∧
      QRep SA (run SA s ops).1 (absRun L ops).1 := by
  intro ops
  induction ops with
  | nil =>
    intro s L h _
    exact ⟨rfl, h⟩
  | cons op ops ih =>
    intro s L h hv
    cases op with
    | push a =>
      obtain ⟨ha0, haSA, haL, hv2⟩ := hv
      have h2 := push_rep SA s L a h ha0 haSA haL
      have := ih (Queue.push SA s a) (L ++ [a]) h2 hv2
      exact this
    | pop =>
      have hp := pop_rep SA s L h
      have hv2 : Valid SA L.tail ops := hv
      have hi := ih (Queue.pop SA s).2 L.tail hp.2 hv2
      cases L with
      | nil =>
        refine ⟨?_, ?_⟩
        · show (Queue.pop SA s).1 :: (run SA (Queue.pop SA s).2 ops).2 =
            none :: (absRun [] ops).2
          rw [hp.1, hi.1]
          rfl
        · show QRep SA (run SA (Queue.pop SA s).2 ops).1 (absRun [] ops).1
          exact hi.2
      | cons n L2 =>
        refine ⟨?_, ?_⟩
        · show (Queue.pop SA s).1 :: (run SA (Queue.pop SA s).2 ops).2 =
            some n :: (absRun L2 ops).2
          rw [hp.1, hi.1]
          rfl
        · show QRep SA (run SA (Queue.pop SA s).2 ops).1 (absRun L2 ops).1
          exact hi.2

/-- The successful outputs of an abstract FIFO run are an initial segment of
the initial pending list followed by the pushed addresses. -/
theorem abs_successes_pfx : ∀ (ops : List Op) (L : List Nat),
    pfxOf (successes (absRun L ops).2) (L ++ pushed ops) := by
  intro ops
  induction ops with
  | nil =>
    intro L
    exact ⟨L, by simp [absRun, successes, pushed]⟩
  | cons op ops ih =>
    intro L
    cases op with
    | push a =>
      rcases ih (L ++ [a]) with ⟨t, ht⟩
      refine ⟨t, ?_⟩
      show successes (absRun (L ++ [a]) ops).2 ++ t = L ++ (a :: pushed ops)
      rw [ht]
      simp
    | pop =>
      cases L with
      | nil =>
        rcases ih [] with ⟨t, ht⟩
        exact ⟨t, by simpa [absRun, successes, pushed] using ht⟩
      | cons n L2 =>
        rcases ih L2 with ⟨t, ht⟩
        refine ⟨t, ?_⟩
        show (n :: successes (absRun L2 ops).2) ++ t = (n :: L2) ++ pushed ops
        simp only [List.cons_append]
        rw [ht]

/-- Counting is monotone along initial segments. -/
theorem pfxOf_count_le (a : Nat) (l1 l2 : List Nat) (h : pfxOf l1 l2) :
    l1.count a ≤ l2.count a := by
  rcases h with ⟨t, ht⟩
  rw [← ht, List.count_append]
  exact Nat.le_add_right _ _

/-- A valid sequence stays valid when truncated. -/
theorem Valid_append_left (SA : Nat) : ∀ (ops1 ops2 : List Op) (L : List Nat),
    Valid SA L (ops1 ++ ops2) → Valid SA L ops1 := by
  intro ops1
  induction ops1 with
  | nil =>
    intro ops2 L _
    trivial
  | cons op ops ih =>
    intro ops2 L hv
    cases op with
    | push a =>
      obtain ⟨h1, h2, h3, h4⟩ := hv
      exact ⟨h1, h2, h3, ih ops2 _ h4⟩
    | pop =>
      exact ih ops2 _ hv

/-- The instrumented tail of `pop` computes the same result as the real one. -/
theorem popRestI_fst (SA : Nat) (s : Queue) (tl nx hops : Nat) :
    (popRestI SA s tl nx hops).1 = popRest SA s tl nx := by
  unfold popRestI popRest
  split_ifs <;> rfl

/-- The instrumented tail of `pop` reports the hop count it was given and at
most one reinsertion. -/
theorem popRestI_bounds (SA : Nat) (s : Queue) (tl nx hops : Nat) :
    (popRestI SA s tl nx hops).2.1 = hops ∧ (popRestI SA s tl nx hops).2.2 ≤ 1 := by
  unfold popRestI
  split_ifs <;> exact ⟨rfl, by simp⟩

/-- The zero-branch-instrumented `push` computes the same state as `push`. -/
theorem pushZ_fst (SA : Nat) (s : Queue) (n : Nat) :
    (pushZ SA s n).1 = Queue.push SA s n := by
  simp only [pushZ, Queue.push]
  split <;> rfl

/-- The zero-branch count of a `push` from a state with nonzero head is 0. -/
theorem pushZ_cnt (SA : Nat) (s : Queue) (n : Nat) (h : s.head ≠ 0) :
    (pushZ SA s n).2 = 0 := by
  simp only [pushZ]
  rw [setLink_head]
  rw [if_neg h]

/-- The zero-branch-instrumented tail of `pop` computes the same result. -/
theorem popRestZ_fst (SA : Nat) (s : Queue) (tl nx : Nat) :
    (popRestZ SA s tl nx).1 = popRest SA s tl nx := by
  unfold popRestZ popRest
  rw [pushZ_fst]
  split_ifs <;> rfl

/-- The zero-branch-instrumented `pop` computes the same result as `pop`. -/
theorem popZ_fst (SA : Nat) (s : Queue) :
    (popZ SA s).1 = Queue.pop SA s := by
  unfold popZ Queue.pop
  split_ifs <;> first | rfl | rw [popRestZ_fst]

/-- From a state with nonzero head, `pop` performs no zero-branch push: its
internal reinsertion, when it happens, always sees the nonzero head. -/
theorem popZ_cnt (SA : Nat) (s : Queue) (h : s.head ≠ 0) :
    (popZ SA s).2 = 0 := by
  unfold popZ popRestZ
  split_ifs <;> first | rfl | exact pushZ_cnt SA _ SA h

/-- Operation `pop` either leaves the head word alone or (via the stub reinsertion)
sets it to the stub address. -/
theorem pop_head_cases (SA : Nat) (s : Queue) :
    (Queue.pop SA s).2.head = s.head ∨ (Queue.pop SA s).2.head = SA := by
  unfold Queue.pop popRest
  split_ifs <;>
    first
      | exact Or.inl rfl
      | exact Or.inr (push_head SA _ SA)

/-- The instrumented run computes the same final state as the real run. -/
theorem runZ_fst (SA : Nat) : ∀ (ops : List Op) (s : Queue),
    (runZ SA s ops).1 = (run SA s ops).1 := by
  intro ops
  induction ops with
  | nil => intro s; rfl
  | cons op ops ih =>
    intro s
    cases op with
    | push a =>
      show (runZ SA (pushZ SA s a).1 ops).1 = (run SA (Queue.push SA s a) ops).1
      rw [pushZ_fst]
      exact ih _
    | pop =>
      show (runZ SA (popZ SA s).1.2 ops).1 = (run SA (Queue.pop SA s).2 ops).1
      rw [popZ_fst]
      exact ih _

/-- Once the head word is nonzero, a run of complete operations keeps it
nonzero and never executes the zero-previous-head branch of `push`. -/
theorem runZ_head_ne (SA : Nat) : ∀ (ops : List Op) (s : Queue),
    SA ≠ 0 → s.head ≠ 0 → (∀ a ∈ pushed ops, a ≠ 0) →
    (runZ SA s ops).1.head ≠ 0 ∧ (runZ SA s ops).2 = 0 := by
  intro ops
  induction ops with
  | nil =>
    intro s _ h _
    exact ⟨h, rfl⟩
  | cons op ops ih =>
    intro s hSA h hz
    cases op with
    | push a =>
      have ha : a ≠ 0 := hz a (by simp [pushed])
      have hh2 : (pushZ SA s a).1.head ≠ 0 := by
        rw [pushZ_fst, push_head]
        exact ha
      have hrec := ih (pushZ SA s a).1 hSA hh2
        (fun b hb => hz b (by simp [pushed]; exact Or.inr hb))
      refine ⟨hrec.1, ?_⟩
      show (pushZ SA s a).2 + (runZ SA (pushZ SA s a).1 ops).2 = 0
      rw [pushZ_cnt SA s a h, hrec.2]
    | pop =>
      have hh2 : (popZ SA s).1.2.head ≠ 0 := by
        rw [popZ_fst]
        rcases pop_head_cases SA s with hcase | hcase
        · rw [hcase]; exact h
        · rw [hcase]; exact hSA
      have hrec := ih (popZ SA s).1.2 hSA hh2 hz
      refine ⟨hrec.1, ?_⟩
      show (popZ SA s).2 + (runZ SA (popZ SA s).1.2 ops).2 = 0
      rw [popZ_cnt SA s h, hrec.2]

/-- From the all-zero initial state, the zero-previous-head branch of `push`
executes at most once over a whole run, and the head word is nonzero as soon
as one push has happened. -/
theorem runZ_zero_start (SA : Nat) : ∀ (ops : List Op) (s : Queue),
    SA ≠ 0 → s.head = 0 → s.tail = 0 → s.stubNext = 0 →
    (∀ a ∈ pushed ops, a ≠ 0) →
    (pushed ops ≠ [] → (runZ SA s ops).1.head ≠ 0) ∧ (runZ SA s ops).2 ≤ 1 := by
  intro ops
  induction ops with
  | nil =>
    intro s _ _ _ _ _
    exact ⟨fun hc => absurd rfl hc, by simp [runZ]⟩
  | cons op ops ih =>
    intro s hSA hh ht hst hz
    cases op with
    | push a =>
      have ha : a ≠ 0 := hz a (by simp [pushed])
      have hh2 : (pushZ SA s a).1.head ≠ 0 := by
        rw [pushZ_fst, push_head]
        exact ha
      have hrec := runZ_head_ne SA ops (pushZ SA s a).1 hSA hh2
        (fun b hb => hz b (by simp [pushed]; exact Or.inr hb))
      constructor
      · intro _
        exact hrec.1
      · show (pushZ SA s a).2 + (runZ SA (pushZ SA s a).1 ops).2 ≤ 1
        rw [hrec.2]
        have hb : (pushZ SA s a).2 ≤ 1 := by
          simp only [pushZ]
          split <;> simp
        omega
    | pop =>
      have hcur : cursor SA s = SA := by simp [cursor, ht]
      have hl : getLink SA s SA = 0 := by simp [getLink, hst]
      have hpz : popZ SA s = ((none, s), 0) := by
        unfold popZ
        rw [if_pos hcur, if_pos hl]
      have hrec := ih s hSA hh ht hst hz
      constructor
      · intro hne
        have hgoal : (runZ SA s ops).1.head ≠ 0 := hrec.1 hne
        show (runZ SA (popZ SA s).1.2 ops).1.head ≠ 0
        rw [hpz]
        exact hgoal
      · show (popZ SA s).2 + (runZ SA (popZ SA s).1.2 ops).2 ≤ 1
        rw [hpz]
        show 0 + (runZ SA s ops).2 ≤ 1
        have := hrec.2
        omega

/-- The state after the stub-advance block has the same head word. -/
theorem adv_head (SA : Nat) (s : Queue) : (adv SA s).head = s.head := by
  unfold adv
  split <;> rfl

/-- Value of `cur1` when the cursor is the stub. -/
theorem cur1_stub (SA : Nat) (s : Queue) (hc : cursor SA s = SA) :
    cur1 SA s = getLink SA s SA := by
  unfold cur1
  rw [if_pos hc]

/-- Value of `cur1` when the cursor is a real node. -/
theorem cur1_real (SA : Nat) (s : Queue) (hc : cursor SA s ≠ SA) :
    cur1 SA s = cursor SA s := by
  unfold cur1
  rw [if_neg hc]

/-- Value of `adv` when the cursor is the stub. -/
theorem adv_stub (SA : Nat) (s : Queue) (hc : cursor SA s = SA) :
    adv SA s = { s with tail := getLink SA s SA } := by
  unfold adv
  rw [if_pos hc]

/-- Value of `adv` when the cursor is a real node. -/
theorem adv_real (SA : Nat) (s : Queue) (hc : cursor SA s ≠ SA) :
    adv SA s = s := by
  unfold adv
  rw [if_neg hc]

/-- Outside case (a), the advanced cursor is a nonzero address. -/
theorem cur1_ne_zero (SA : Nat) (s : Queue) (hSA : SA ≠ 0) (hA : ¬ condA SA s) :
    cur1 SA s ≠ 0 := by
  unfold cur1
  by_cases hc : cursor SA s = SA
  · rw [if_pos hc]
    exact fun hz => hA ⟨hc, hz⟩
  · rw [if_neg hc]
    unfold cursor
    split
    · exact hSA
    · rename_i ht
      exact ht

/-- Pushing the stub onto a state whose head is a nonzero node links that
node to the stub. -/
theorem push_getLink_self (SA : Nat) (t : Queue) (hh : t.head ≠ 0) :
    getLink SA (Queue.push SA t SA) t.head = SA := by
  rw [push_getLink, if_neg hh]
  simp [upd]

/-- Core of the stub-reinsertion path of `pop`: when the advanced cursor's
link is null and the cursor equals head, the reinserted stub is found by the
re-read (the re-read yields the stub address), and `pop` returns the cursor
with the consumer tail set to the stub. -/
theorem reinsert_core (SA : Nat) (s : Queue) (hSA : SA ≠ 0) (hA : ¬ condA SA s)
    (hnull : getLink SA s (cur1 SA s) = 0) (hhd : cur1 SA s = s.head) :
    getLink SA (Queue.push SA (adv SA s) SA) (cur1 SA s) = SA ∧
      Queue.pop SA s =
        (some (cur1 SA s), { Queue.push SA (adv SA s) SA with tail := SA }) := by
  have hc10 : cur1 SA s ≠ 0 := cur1_ne_zero SA s hSA hA
  have hh0 : s.head ≠ 0 := by rw [← hhd]; exact hc10
  have hgl : getLink SA (Queue.push SA (adv SA s) SA) (cur1 SA s) = SA := by
    rw [hhd, ← adv_head SA s]
    exact push_getLink_self SA (adv SA s) (by rw [adv_head SA s]; exact hh0)
  refine ⟨hgl, ?_⟩
  by_cases hc : cursor SA s = SA
  · have hn0 : getLink SA s SA ≠ 0 := fun hz => hA ⟨hc, hz⟩
    have hcu := cur1_stub SA s hc
    have hadv := adv_stub SA s hc
    rw [pop_stub_adv SA s hc hn0]
    have hnx : getLink SA s (getLink SA s SA) = 0 := by rw [← hcu]; exact hnull
    have hhh : getLink SA s SA = ({ s with tail := getLink SA s SA } : Queue).head := by
      show getLink SA s SA = s.head
      rw [← hcu]
      exact hhd
    have hre : getLink SA (Queue.push SA { s with tail := getLink SA s SA } SA)
        (getLink SA s SA) ≠ 0 := by
      rw [← hadv, ← hcu, hgl]
      exact hSA
    rw [popRest_reinsert SA { s with tail := getLink SA s SA } (getLink SA s SA) _ hnx hhh hre]
    rw [← hadv, ← hcu, hgl]
  · have hcu := cur1_real SA s hc
    have hadv := adv_real SA s hc
    rw [pop_direct SA s hc]
    have hnx : getLink SA s (cursor SA s) = 0 := by rw [← hcu]; exact hnull
    have hhh : cursor SA s = s.head := by rw [← hcu]; exact hhd
    have hre : getLink SA (Queue.push SA s SA) (cursor SA s) ≠ 0 := by
      rw [show Queue.push SA s SA = Queue.push SA (adv SA s) SA from by rw [hadv]]
      rw [← hcu, hgl]
      exact hSA
    rw [popRest_reinsert SA s (cursor SA s) _ hnx hhh hre]
    rw [show Queue.push SA s SA = Queue.push SA (adv SA s) SA from by rw [hadv]]
    rw [← hcu, hgl]

/-- Claim C4 (amended): `pop` reports empty exactly in case (a) (cursor is
the stub with null link), case (b) (cursor link null and cursor differs from
head) or case (c) (link still null after the stub reinsertion — a vacuous
case, see the C10 theorem).  In case (a) the state is unchanged; in case (b)
the state is `adv SA s`: unchanged except that the consumer tail may already
have been advanced from the stub to the stub's successor by step 3. -/
theorem pop_none_char (SA : Nat) (s : Queue) (hSA : SA ≠ 0) :
    ((Queue.pop SA s).1 = none ↔ (condA SA s ∨ condB SA s ∨ condC SA s)) ∧
    (condA SA s → (Queue.pop SA s).2 = s) ∧
    (condB SA s → (Queue.pop SA s).2 = adv SA s) := by
  by_cases hc : cursor SA s = SA
  · by_cases hz : getLink SA s SA = 0
    · rw [pop_stub_empty SA s hc hz]
      refine ⟨?_, fun _ => rfl, ?_⟩
      · exact ⟨fun _ => Or.inl ⟨hc, hz⟩, fun _ => rfl⟩
      · intro hB
        exact absurd ⟨hc, hz⟩ hB.1
    · have hA : ¬ condA SA s := fun hca => hz hca.2
      have hcu := cur1_stub SA s hc
      have hadv := adv_stub SA s hc
      by_cases hnx : getLink SA s (getLink SA s SA) = 0
      · by_cases hhd : getLink SA s SA = s.head
        · have hnull : getLink SA s (cur1 SA s) = 0 := by rw [hcu]; exact hnx
          have hhd2 : cur1 SA s = s.head := by rw [hcu]; exact hhd
          have hcore := reinsert_core SA s hSA hA hnull hhd2
          rw [hcore.2]
          refine ⟨?_, ?_, ?_⟩
          · constructor
            · intro hcontra
              exact Option.noConfusion hcontra
            · intro hor
              exfalso
              rcases hor with hA2 | hB2 | hC2
              · exact hz hA2.2
              · exact hB2.2.2 hhd2
              · have hC4 := hC2.2.2.2
                rw [hcore.1] at hC4
                exact hSA hC4
          · intro hA2
            exact absurd hA2.2 hz
          · intro hB2
            exact absurd hhd2 hB2.2.2
        · rw [pop_stub_adv SA s hc hz,
            popRest_behind SA { s with tail := getLink SA s SA } (getLink SA s SA) _ hnx hhd]
          refine ⟨?_, ?_, ?_⟩
          · constructor
            · intro _
              refine Or.inr (Or.inl ⟨hA, ?_, ?_⟩)
              · rw [hcu]
                exact hnx
              · rw [hcu]
                exact hhd
            · intro _
              rfl
          · intro hA2
            exact absurd hA2.2 hz
          · intro _
            rw [hadv]
      · rw [pop_stub_adv SA s hc hz,
          popRest_some SA { s with tail := getLink SA s SA } (getLink SA s SA) _ hnx]
        refine ⟨?_, ?_, ?_⟩
        · constructor
          · intro hcontra
            exact Option.noConfusion hcontra
          · intro hor
            exfalso
            rcases hor with hA2 | hB2 | hC2
            · exact hz hA2.2
            · apply hnx
              rw [← hcu]
              exact hB2.2.1
            · apply hnx
              rw [← hcu]
              exact hC2.2.1
        · intro hA2
          exact absurd hA2.2 hz
        · intro hB2
          exfalso
          apply hnx
          rw [← hcu]
          exact hB2.2.1
  · have hA : ¬ condA SA s := fun hca => hc hca.1
    have hcu := cur1_real SA s hc
    have hadv := adv_real SA s hc
    by_cases hnx : getLink SA s (cursor SA s) = 0
    · by_cases hhd : cursor SA s = s.head
      · have hnull : getLink SA s (cur1 SA s) = 0 := by rw [hcu]; exact hnx
        have hhd2 : cur1 SA s = s.head := by rw [hcu]; exact hhd
        have hcore := reinsert_core SA s hSA hA hnull hhd2
        rw [hcore.2]
        refine ⟨?_, ?_, ?_⟩
        · constructor
          · intro hcontra
            exact Option.noConfusion hcontra
          · intro hor
            exfalso
            rcases hor with hA2 | hB2 | hC2
            · exact hc hA2.1
            · exact hB2.2.2 hhd2
            · have hC4 := hC2.2.2.2
              rw [hcore.1] at hC4
              exact hSA hC4
        · intro hA2
          exact absurd hA2.1 hc
        · intro hB2
          exact absurd hhd2 hB2.2.2
      · rw [pop_direct SA s hc, popRest_behind SA s (cursor SA s) _ hnx hhd]
        refine ⟨?_, ?_, ?_⟩
        · constructor
          · intro _
            refine Or.inr (Or.inl ⟨hA, ?_, ?_⟩)
            · rw [hcu]
              exact hnx
            · rw [hcu]
              exact hhd
          · intro _
            rfl
        · intro hA2
          exact absurd hA2.1 hc
        · intro _
          rw [hadv]
    · rw [pop_direct SA s hc, popRest_some SA s (cursor SA s) _ hnx]
      refine ⟨?_, ?_, ?_⟩
      · constructor
        · intro hcontra
          exact Option.noConfusion hcontra
        · intro hor
          exfalso
          rcases hor with hA2 | hB2 | hC2
          · exact hc hA2.1
          · apply hnx
            rw [← hcu]
            exact hB2.2.1
          · apply hnx
            rw [← hcu]
            exact hC2.2.1
      · intro hA2
        exact absurd hA2.1 hc
      · intro hB2
        exfalso
        apply hnx
        rw [← hcu]
        exact hB2.2.1

/-- Claim C1: for every sequence of push and pop operations executed
sequentially on a queue starting empty, with every pushed node a fresh,
nonzero, non-stub address, the pop results are exactly those of the abstract
FIFO queue — pops return the pushed nodes in push order. -/
theorem fifo_refinement (SA : Nat) (m : Nat → Nat) (ops : List Op)
    (hSA : SA ≠ 0) (hv : Valid SA [] ops) :
    (run SA (Queue.new m) ops).2 = (absRun [] ops).2 :=
  (run_abs SA ops (Queue.new m) [] (rep_new SA m hSA) hv).1

/-- Witness for C1: push(2); push(3); pop; pop; pop yields 2, then 3, then
the empty indicator. -/
theorem fifo_refinement_witness :
    (run 1 (Queue.new (fun _ => 0)) [Op.push 2, Op.push 3, Op.pop, Op.pop, Op.pop]).2 =
      [some 2, some 3, none] := by
  have h := fifo_refinement 1 (fun _ => 0)
    [Op.push 2, Op.push 3, Op.pop, Op.pop, Op.pop] (by decide) (by decide)
  rw [h]
  rfl

/-- Claim C2, counterexample to the claim as stated: on the one-element state
`s2cex` (node 2 pushed onto a fresh queue with stub address 1), `pop` reaches
step 6, the re-read link is non-null, and `pop` returns the cursor — but it
sets the tail to the re-read link, i.e. to the stub address 1 itself, which
differs from the stub's linked successor (the stub's own link is 0). -/
theorem step6_tail_cex :
    (¬ condA 1 s2cex) ∧ getLink 1 s2cex (cur1 1 s2cex) = 0 ∧
      cur1 1 s2cex = s2cex.head ∧
      (Queue.pop 1 s2cex).1 = some (cur1 1 s2cex) ∧
      (Queue.pop 1 s2cex).2.tail = 1 ∧
      getLink 1 (Queue.pop 1 s2cex).2 1 = 0 ∧
      (Queue.pop 1 s2cex).2.tail ≠ getLink 1 (Queue.pop 1 s2cex).2 1 := by
  decide

/-- Claim C2 (amended): in pop, when the cursor's forward link is null and
the cursor equals the current head, pop re-inserts the stub via the push
operation and re-reads the cursor's forward link; the re-read link is
non-null (it is the stub, now linked after the cursor), and pop sets the tail
to that re-read link — the stub itself, not the stub's successor — and
returns the cursor node. -/
theorem pop_reinsert_sets_tail_to_stub (SA : Nat) (s : Queue) (hSA : SA ≠ 0)
    (hA : ¬ condA SA s) (hnull : getLink SA s (cur1 SA s) = 0)
    (hhd : cur1 SA s = s.head) :
    getLink SA (Queue.push SA (adv SA s) SA) (cur1 SA s) = SA ∧
      Queue.pop SA s =
        (some (cur1 SA s), { Queue.push SA (adv SA s) SA with tail := SA }) :=
  reinsert_core SA s hSA hA hnull hhd

/-- Witness for the amended C2 on the concrete one-element state. -/
theorem pop_reinsert_sets_tail_to_stub_witness :
    getLink 1 (Queue.push 1 (adv 1 s2cex) 1) (cur1 1 s2cex) = 1 ∧
      Queue.pop 1 s2cex =
        (some (cur1 1 s2cex), { Queue.push 1 (adv 1 s2cex) 1 with tail := 1 }) :=
  pop_reinsert_sets_tail_to_stub 1 s2cex (by decide) (by decide) (by decide) (by decide)

/-- Claim C3: push stores null into the pushed node's own link field first,
then exchanges the queue head with the node's address; if the previous head
was the zero representation it links the stub's forward field to the node,
otherwise it links the previous head node's forward field to the node. -/
theorem push_characterization (SA : Nat) (s : Queue) (n : Nat) :
    (Queue.push SA s n).head = n ∧ (Queue.push SA s n).tail = s.tail ∧
      getLink SA (Queue.push SA s n) =
        upd (upd (getLink SA s) n 0) (if s.head = 0 then SA else s.head) n :=
  ⟨push_head SA s n, push_tail SA s n, push_getLink SA s n⟩

/-- Claim C4, counterexample to the claim as stated: on the mid-push state
`cexB` (head swapped to node 7 whose link write has not landed), `pop`
reports empty through case (b) but does modify the queue state — the
consumer tail advances from null to the stub's successor. -/
theorem pop_none_modifies_cex :
    condB 1 cexB ∧ (Queue.pop 1 cexB).1 = none ∧
      (Queue.pop 1 cexB).2.tail ≠ cexB.tail := by
  decide

/-- Witness for the amended C4: on a fresh queue, pop reports empty (it is
case (a)). -/
theorem pop_none_char_witness :
    (Queue.pop 1 (Queue.new (fun _ => 0))).1 = none :=
  (pop_none_char 1 (Queue.new (fun _ => 0)) (by decide)).1.mpr (Or.inl (by decide))

/-- Claim C5: along any valid operation sequence from the empty queue, every
address is returned by pop at most as many times as it has been pushed, over
every initial segment of the sequence — so no address is returned more than
once per push, and none before some push introduced it. -/
theorem pop_count_le_push_count (SA : Nat) (m : Nat → Nat) (a : Nat)
    (ops1 ops2 : List Op) (hSA : SA ≠ 0) (hv : Valid SA [] (ops1 ++ ops2)) :
    (successes (run SA (Queue.new m) ops1).2).count a ≤ (pushed ops1).count a := by
  have hv1 := Valid_append_left SA ops1 ops2 [] hv
  have h := (run_abs SA ops1 (Queue.new m) [] (rep_new SA m hSA) hv1).1
  rw [h]
  have hp := abs_successes_pfx ops1 []
  have hcount := pfxOf_count_le a _ _ hp
  simpa using hcount

/-- Witness for C5 on a concrete two-operation trace. -/
theorem pop_count_le_push_count_witness :
    (successes (run 1 (Queue.new (fun _ => 0)) [Op.push 2, Op.pop]).2).count 2 ≤
      (pushed [Op.push 2, Op.pop]).count 2 :=
  pop_count_le_push_count 1 (fun _ => 0) 2 [Op.push 2, Op.pop] [] (by decide) (by decide)

/-- Claim C6: the state produced by the explicit constructor equals the
all-zero representation, and consequently a queue built either way behaves
identically under every subsequent sequence of pushes and pops. -/
theorem new_eq_zeroed (SA : Nat) (m : Nat → Nat) (ops : List Op) :
    Queue.new m = Queue.zeroed m ∧
      run SA (Queue.new m) ops = run SA (Queue.zeroed m) ops :=
  ⟨rfl, rfl⟩

/-- Claim C7: pop is a straight-line computation — the instrumented pop
computes the same result as pop on every state, performing at most one
cursor hop and at most one stub reinsertion; there is no loop or retry. -/
theorem pop_bounded_steps (SA : Nat) (s : Queue) :
    (popInstr SA s).1 = Queue.pop SA s ∧
      (popInstr SA s).2.1 ≤ 1 ∧ (popInstr SA s).2.2 ≤ 1 := by
  by_cases hc : cursor SA s = SA
  · by_cases hz : getLink SA s SA = 0
    · rw [pop_stub_empty SA s hc hz]
      unfold popInstr
      rw [if_pos hc, if_pos hz]
      exact ⟨rfl, by simp, by simp⟩
    · rw [pop_stub_adv SA s hc hz]
      unfold popInstr
      rw [if_pos hc, if_neg hz]
      have hb := popRestI_bounds SA { s with tail := getLink SA s SA }
        (getLink SA s SA) (getLink SA s (getLink SA s SA)) 1
      exact ⟨popRestI_fst SA _ _ _ _, le_of_eq hb.1, hb.2⟩
  · rw [pop_direct SA s hc]
    unfold popInstr
    rw [if_neg hc]
    have hb := popRestI_bounds SA s (cursor SA s) (getLink SA s (cursor SA s)) 0
    refine ⟨popRestI_fst SA _ _ _ _, ?_, hb.2⟩
    rw [hb.1]
    exact Nat.zero_le 1

/-- Claim C8: pop never returns the stub address as a successful result on
any state reachable by a valid operation sequence from the empty queue. -/
theorem pop_never_returns_stub (SA : Nat) (m : Nat → Nat) (ops : List Op) (n : Nat)
    (hSA : SA ≠ 0) (hv : Valid SA [] ops)
    (hp : (Queue.pop SA (run SA (Queue.new m) ops).1).1 = some n) : n ≠ SA := by
  have hrep := (run_abs SA ops (Queue.new m) [] (rep_new SA m hSA) hv).2
  have hpop := pop_rep SA (run SA (Queue.new m) ops).1 (absRun [] ops).1 hrep
  rw [hpop.1] at hp
  have hnL : n ∈ (absRun [] ops).1 := by
    cases hL : (absRun [] ops).1 with
    | nil =>
      rw [hL] at hp
      exact Option.noConfusion hp
    | cons x L2 =>
      rw [hL] at hp
      have hx : x = n := by simpa using hp
      simp [hx]
  obtain ⟨_, C, _, _, hSAL, _⟩ := hrep
  exact fun hceq => hSAL (hceq ▸ hnL)

/-- Witness for C8: after pushing node 2, pop returns 2, which is not the
stub address 1. -/
theorem pop_never_returns_stub_witness :
    (Queue.pop 1 (run 1 (Queue.new (fun _ => 0)) [Op.push 2]).1).1 = some 2 ∧
      (2 : Nat) ≠ 1 :=
  ⟨by decide,
    pop_never_returns_stub 1 (fun _ => 0) [Op.push 2] 2 (by decide) (by decide) (by decide)⟩

/-- Claim C9: once any push of a (nonzero) node has executed, the queue head
is never the zero representation again, and the zero-previous-head branch of
push — the one that writes the stub's forward field — executes at most once
in a run, counting the stub reinsertions performed inside pop. -/
theorem zero_branch_once (SA : Nat) (m : Nat → Nat) (ops : List Op)
    (hSA : SA ≠ 0) (hz : ∀ a ∈ pushed ops, a ≠ 0) :
    (pushed ops ≠ [] → (run SA (Queue.new m) ops).1.head ≠ 0) ∧
      (runZ SA (Queue.new m) ops).2 ≤ 1 := by
  have h := runZ_zero_start SA ops (Queue.new m) hSA rfl rfl rfl hz
  refine ⟨?_, h.2⟩
  intro hne
  have hh := h.1 hne
  rw [runZ_fst] at hh
  exact hh

/-- Witness for C9 on a concrete trace with one push and two pops. -/
theorem zero_branch_once_witness :
    (pushed [Op.push 2, Op.pop, Op.pop] ≠ [] →
      (run 1 (Queue.new (fun _ => 0)) [Op.push 2, Op.pop, Op.pop]).1.head ≠ 0) ∧
      (runZ 1 (Queue.new (fun _ => 0)) [Op.push 2, Op.pop, Op.pop]).2 ≤ 1 :=
  zero_branch_once 1 (fun _ => 0) [Op.push 2, Op.pop, Op.pop] (by decide) (by decide)

/-- Claim C10: in sequential execution, whenever pop reaches step 6 (cursor
link null and cursor equal to head) and pushes the stub, the re-read of the
cursor's forward link is non-null — it is the stub — so the trailing return
of the empty indicator never executes under that precondition. -/
theorem pop_reinsert_never_none (SA : Nat) (s : Queue) (hSA : SA ≠ 0)
    (hA : ¬ condA SA s) (hnull : getLink SA s (cur1 SA s) = 0)
    (hhd : cur1 SA s = s.head) :
    getLink SA (Queue.push SA (adv SA s) SA) (cur1 SA s) ≠ 0 ∧
      (Queue.pop SA s).1 ≠ none := by
  have hcore := reinsert_core SA s hSA hA hnull hhd
  constructor
  · rw [hcore.1]
    exact hSA
  · rw [hcore.2]
    exact fun hcontra => Option.noConfusion hcontra

/-- Witness for C10 on the concrete one-element state. -/
theorem pop_reinsert_never_none_witness :
    getLink 1 (Queue.push 1 (adv 1 s2cex) 1) (cur1 1 s2cex) ≠ 0 ∧
      (Queue.pop 1 s2cex).1 ≠ none :=
  pop_reinsert_never_none 1 s2cex (by decide) (by decide) (by decide) (by decide)
